import Mathlib

/-!
Verification of the NFC access bot (`bot.py`): a shallow embedding of the
`nfc_keys` code store, the claim engine (`claim_key_for_user` and the
`/start` handler `cmd_start`), revocation (`revoke_key`), batch code
generation (`create_keys_batch`) and access re-issuance (`cmd_access`).

Modelling conventions:
* the SQLite table `nfc_keys` is a `List KeyRecord`, in insertion order;
  `SELECT ... WHERE code=?` is `getKey` (first matching row) and
  `UPDATE ... WHERE code=?` is `updRecords` (every matching row);
* timestamps are `Nat` ticks; the source stores ISO-8601 strings from a
  monotone UTC clock, whose lexicographic order agrees with time order,
  and SQLite sorts NULL below every value, which `rank` reproduces;
* `secrets.choice(alphabet)` is modelled by indexing the 36-character
  alphabet with `rng k % 36` for a stream `rng : Nat → Nat` of random
  draws; the unbounded collision-retry `while True` loop gets explicit
  fuel and returns `Option`, `none` standing for non-termination;
* the `access_logs` table rows produced by one handler call are returned
  as a `List LogEntry`.
-/

namespace NfcBot

/-- One row of the `nfc_keys` table. -/
structure KeyRecord where
  code : String
  product_id : Option String
  assigned_user_id : Option Int
  status : String
  created_at : Nat
  claimed_at : Option Nat
deriving Repr, DecidableEq

/-- One row of the `access_logs` table (the autoincrement id and the
`created_at` clock value are irrelevant to the claims and omitted). -/
structure LogEntry where
  user_id : Option Int
  code : Option String
  action : String
  reason : String
deriving Repr, DecidableEq

/-- `SELECT ... FROM nfc_keys WHERE code=?`: the first row with this code. -/
def getKey : List KeyRecord → String → Option KeyRecord
  | [], _ => none
  | r :: rs, c => if r.code = c then some r else getKey rs c

/-- `UPDATE nfc_keys SET ... WHERE code=?`: rewrite every row with this code. -/
def updRecords (f : KeyRecord → KeyRecord) (c : String) : List KeyRecord → List KeyRecord
  | [] => []
  | r :: rs => (if r.code = c then f r else r) :: updRecords f c rs

/-- The row update performed by the claiming branch of `claim_key_for_user`:
`SET assigned_user_id=?, status='claimed', claimed_at=?`. -/
def setClaimed (uid : Int) (now : Nat) (r : KeyRecord) : KeyRecord :=
  { r with assigned_user_id := some uid, status := "claimed", claimed_at := some now }

/-- The row update performed by `revoke_key`: `SET status='revoked'`. -/
def setRevoked (r : KeyRecord) : KeyRecord :=
  { r with status := "revoked" }

/-- `claim_key_for_user(code, user_id)` from `bot.py`: read the row, reject a
missing or revoked code, claim an unowned code, otherwise compare owners.
Returns the Python `bool` result together with the table after the call. -/
def claim_key_for_user (code : String) (user_id : Int) (now : Nat)
    (st : List KeyRecord) : Bool × List KeyRecord :=
  match getKey st code with
  | none => (false, st)
  | some row =>
    if row.status = "revoked" then (false, st)
    else
      match row.assigned_user_id with
      | none => (true, updRecords (setClaimed user_id now) code st)
      | some uid => (decide (uid = user_id), st)

/-- `revoke_key(code)` from `bot.py`: `False` when the code is absent,
otherwise set `status='revoked'` unconditionally and return `True`. -/
def revoke_key (code : String) (st : List KeyRecord) : Bool × List KeyRecord :=
  match getKey st code with
  | none => (false, st)
  | some _ => (true, updRecords setRevoked code st)

/-- The 36-symbol alphabet `string.ascii_uppercase + string.digits`. -/
def alphabet : List Char := "ABCDEFGHIJKLMNOPQRSTUVWXYZ0123456789".toList

/-- One candidate code: 12 characters drawn from `alphabet` by consecutive
random draws `rng pos, …, rng (pos+11)`, as in
`"".join(secrets.choice(alphabet) for _ in range(12))`. -/
def mkCode (rng : Nat → Nat) (pos : Nat) : String :=
  String.mk ((List.range 12).map (fun i =>
    alphabet.get ⟨rng (pos + i) % 36, by
      have h : alphabet.length = 36 := by decide
      exact h ▸ Nat.mod_lt _ (by decide)⟩))

/-- The `while True` collision-retry loop of `create_keys_batch`: draw
candidate codes until one is absent from the table, giving up (`none`) when
the fuel runs out.  Returns the fresh code and the next unused draw index. -/
def pickFresh (rng : Nat → Nat) (st : List KeyRecord) :
    Nat → Nat → Option (String × Nat)
  | _, 0 => none
  | pos, fuel + 1 =>
    if getKey st (mkCode rng pos) = none then some (mkCode rng pos, pos + 12)
    else pickFresh rng st (pos + 12) fuel

/-- The fresh row inserted by `create_keys_batch`:
`(code, product_id, NULL, 'new', now, NULL)`. -/
def newRec (c : String) (pid : Option String) (now : Nat) : KeyRecord :=
  ⟨c, pid, none, "new", now, none⟩

/-- `create_keys_batch(amount, product_id)` from `bot.py`: repeat `amount`
times — retry-draw a code absent from the table, insert it with status
`new` — and return the codes in generation order with the final table. -/
def create_keys_batch (rng : Nat → Nat) (fuel : Nat) (now : Nat)
    (pid : Option String) : Nat → Nat → List KeyRecord →
    Option (List String × List KeyRecord)
  | 0, _, st => some ([], st)
  | amount + 1, pos, st =>
    match pickFresh rng st pos fuel with
    | none => none
    | some (c, pos2) =>
      match create_keys_batch rng fuel now pid amount pos2 (st ++ [newRec c pid now]) with
      | none => none
      | some (cs, st2) => some (c :: cs, st2)

/-- The outcome of one `/start` claim attempt, naming the branch the handler
takes.  The source collapses both granted branches into the same user-visible
invite message; they are distinguished here by whether the store is mutated. -/
inductive ClaimResult where
  | noCode
  | notFound
  | rejectedRevoked
  | grantedNew
  | grantedExisting
  | rejectedOwnedByOther
deriving Repr, DecidableEq

/-- A row of `access_logs` as written by `add_log` inside `cmd_start`. -/
def logEntry (uid : Int) (c : String) (action reason : String) : LogEntry :=
  ⟨some uid, some c, action, reason⟩

/-- The `/start` handler `cmd_start` from `bot.py`, restricted to its effect
on the code store and the audit log: bail out on an empty code, log the
attempt, branch on `get_key`, call `claim_key_for_user`, and on success log
`invite_created` for the issued invite link.  `code` is the handler's local
variable, i.e. the `/start` argument already stripped of whitespace. -/
def cmd_start (code : String) (uid : Int) (now : Nat)
    (st : List KeyRecord) : ClaimResult × List KeyRecord × List LogEntry :=
  if code = "" then (.noCode, st, [])
  else
    let attemptLog := logEntry uid code "attempt" "start_param"
    match getKey st code with
    | none => (.notFound, st, [attemptLog, logEntry uid code "rejected" "code_not_found"])
    | some row =>
      if row.status = "revoked" then
        (.rejectedRevoked, st, [attemptLog, logEntry uid code "rejected" "code_revoked"])
      else
        let res := claim_key_for_user code uid now st
        if res.1 then
          (if row.assigned_user_id = none then .grantedNew else .grantedExisting,
           res.2, [attemptLog, logEntry uid code "invite_created" "start_flow"])
        else
          (.rejectedOwnedByOther, res.2,
           [attemptLog, logEntry uid code "rejected" "owned_by_another"])

/-- Does this row satisfy `assigned_user_id=? AND status='claimed'`? -/
def matchRec (uid : Int) (r : KeyRecord) : Bool :=
  r.assigned_user_id == some uid && r.status == "claimed"

/-- SQLite comparison key for `ORDER BY claimed_at`: NULL sorts below every
value. -/
def rank : Option Nat → Nat
  | none => 0
  | some n => n + 1

/-- Strict `claimed_at` comparison used to keep the maximum while scanning. -/
def claimedLt (a b : Option Nat) : Bool :=
  rank a < rank b

/-- One `ORDER BY claimed_at DESC LIMIT 1` scan: fold the rows, keeping a row
with the greatest `claimed_at` seen so far. -/
def best : Option KeyRecord → List KeyRecord → Option KeyRecord
  | acc, [] => acc
  | acc, r :: rs =>
    best (match acc with
          | none => some r
          | some b => if claimedLt b.claimed_at r.claimed_at then some r else some b) rs

/-- The query inside `cmd_access`: `SELECT code FROM nfc_keys WHERE
assigned_user_id=? AND status='claimed' ORDER BY claimed_at DESC LIMIT 1`. -/
def latestClaimFor (uid : Int) (st : List KeyRecord) : Option String :=
  (best none (st.filter (matchRec uid))).map (fun r => r.code)

/-- The `/access` handler restricted to the code store: a read-only lookup of
the user's most recent claimed code. -/
def cmd_access (uid : Int) (st : List KeyRecord) : Option String × List KeyRecord :=
  (latestClaimFor uid st, st)

/-- The read step of `claim_key_for_user`: the first `await db.execute`
(`SELECT status, assigned_user_id ...`), after which the coroutine may be
suspended while other tasks run against the same database. -/
def claimRead (code : String) (st : List KeyRecord) : Option (String × Option Int) :=
  (getKey st code).map (fun r => (r.status, r.assigned_user_id))

/-- The remainder of `claim_key_for_user` after the read: decide and, on the
unowned branch, issue the `UPDATE` against the *current* table — acting on
the possibly stale row snapshot `snap`. -/
def claimFinish (code : String) (uid : Int) (now : Nat)
    (snap : Option (String × Option Int)) (st : List KeyRecord) :
    Bool × List KeyRecord :=
  match snap with
  | none => (false, st)
  | some (status, assigned) =>
    if status = "revoked" then (false, st)
    else
      match assigned with
      | none => (true, updRecords (setClaimed uid now) code st)
      | some a => (decide (a = uid), st)

/-- Every database-mutating operation of the bot, for quantifying over
arbitrary later activity on the store. -/
inductive Op where
  | claim (code : String) (uid : Int) (now : Nat)
  | revoke (code : String)
  | gen (rng : Nat → Nat) (fuel now amount pos : Nat) (pid : Option String)

/-- The effect of one operation on the `nfc_keys` table (a generation run
whose retry loop never terminates commits nothing). -/
def applyOp : Op → List KeyRecord → List KeyRecord
  | .claim c u n, st => (claim_key_for_user c u n st).2
  | .revoke c, st => (revoke_key c st).2
  | .gen rng fuel now amount pos pid, st =>
    match create_keys_batch rng fuel now pid amount pos st with
    | none => st
    | some (_, st2) => st2

/-- A whole sequence of later operations. -/
def applyOps (ops : List Op) (st : List KeyRecord) : List KeyRecord :=
  ops.foldl (fun s o => applyOp o s) st

/-- `n`-fold repetition of the same claim call (for idempotence). -/
def claimN (code : String) (uid : Int) (now : Nat) : Nat → List KeyRecord → List KeyRecord
  | 0, st => st
  | n + 1, st => claimN code uid now n (claim_key_for_user code uid now st).2

/-- Spec-side reference procedure, written from the spec's words (§4.1 steps
1–5) solely for comparison with `cmd_start`: absent → `NOT_FOUND`; revoked →
`REJECTED_REVOKED`; unowned → claim and `GRANTED_NEW`; owner matches →
`GRANTED_EXISTING`; owner differs → `REJECTED_OWNED_BY_OTHER`. -/
def attemptClaimSpec (code : String) (uid : Int) (now : Nat)
    (st : List KeyRecord) : ClaimResult × List KeyRecord :=
  match getKey st code with
  | none => (.notFound, st)
  | some r =>
    if r.status = "revoked" then (.rejectedRevoked, st)
    else
      match r.assigned_user_id with
      | none => (.grantedNew, updRecords (setClaimed uid now) code st)
      | some a => if a = uid then (.grantedExisting, st) else (.rejectedOwnedByOther, st)

/-! ### Basic lemmas about the table model -/

theorem getKey_code : ∀ {st : List KeyRecord} {c : String} {r : KeyRecord},
    getKey st c = some r → r.code = c := by
  intro st
  induction st with
  | nil => intro c r h; simp [getKey] at h
  | cons x xs ih =>
    intro c r h
    by_cases hx : x.code = c
    · simp only [getKey, if_pos hx] at h
      cases h
      exact hx
    · simp only [getKey, if_neg hx] at h
      exact ih h

theorem getKey_updRecords (f : KeyRecord → KeyRecord) (c' : String)
    (hf : ∀ x, (f x).code = x.code) :
    ∀ (st : List KeyRecord) (c : String),
    getKey (updRecords f c' st) c =
      (getKey st c).map (fun r => if r.code = c' then f r else r) := by
  intro st
  induction st with
  | nil => intro c; rfl
  | cons x xs ih =>
    intro c
    have hcode : (if x.code = c' then f x else x).code = x.code := by
      by_cases hx : x.code = c'
      · simp [hx, hf]
      · simp [hx]
    simp only [updRecords, getKey, hcode]
    by_cases hc : x.code = c
    · simp [hc]
    · simp [hc, ih]

theorem getKey_append_some {st1 : List KeyRecord} {c : String} {r : KeyRecord}
    (st2 : List KeyRecord) (h : getKey st1 c = some r) :
    getKey (st1 ++ st2) c = some r := by
  induction st1 with
  | nil => simp [getKey] at h
  | cons x xs ih =>
    by_cases hx : x.code = c
    · simp only [getKey, if_pos hx] at h ⊢
      exact h
    · simp only [getKey, if_neg hx] at h ⊢
      exact ih h

theorem getKey_append_none {st1 : List KeyRecord} {c : String}
    (st2 : List KeyRecord) (h : getKey st1 c = none) :
    getKey (st1 ++ st2) c = getKey st2 c := by
  induction st1 with
  | nil => rfl
  | cons x xs ih =>
    by_cases hx : x.code = c
    · simp only [getKey, if_pos hx] at h
      exact Option.noConfusion h
    · simp only [getKey, if_neg hx] at h ⊢
      exact ih h

theorem getKey_append_none_of_append {st1 st2 : List KeyRecord} {c : String}
    (h : getKey (st1 ++ st2) c = none) : getKey st1 c = none := by
  cases hk : getKey st1 c with
  | none => rfl
  | some r => rw [getKey_append_some st2 hk] at h; cases h

theorem setClaimed_code (uid : Int) (now : Nat) (r : KeyRecord) :
    (setClaimed uid now r).code = r.code := rfl

theorem setRevoked_code (r : KeyRecord) : (setRevoked r).code = r.code := rfl

/-- The table after `claim_key_for_user`: either untouched, or the claiming
`UPDATE` ran because the looked-up row was unowned and not revoked. -/
theorem claim_snd (c : String) (u : Int) (n : Nat) (st : List KeyRecord) :
    (claim_key_for_user c u n st).2 = st ∨
    (∃ r, getKey st c = some r ∧ r.status ≠ "revoked" ∧ r.assigned_user_id = none ∧
      (claim_key_for_user c u n st).2 = updRecords (setClaimed u n) c st) := by
  cases hk : getKey st c with
  | none => exact Or.inl (by simp [claim_key_for_user, hk])
  | some r =>
    by_cases hs : r.status = "revoked"
    · exact Or.inl (by simp [claim_key_for_user, hk, hs])
    · cases ha : r.assigned_user_id with
      | none => exact Or.inr ⟨r, rfl, hs, ha, by simp [claim_key_for_user, hk, hs, ha]⟩
      | some a => exact Or.inl (by simp [claim_key_for_user, hk, hs, ha])

/-! ### Lemmas about batch generation -/

theorem pickFresh_sound (rng : Nat → Nat) (st : List KeyRecord) :
    ∀ (fuel pos : Nat) {c : String} {pos2 : Nat},
    pickFresh rng st pos fuel = some (c, pos2) →
    getKey st c = none ∧ ∃ p, c = mkCode rng p := by
  intro fuel
  induction fuel with
  | zero => intro pos c pos2 h; exact Option.noConfusion h
  | succ n ih =>
    intro pos c pos2 h
    by_cases hg : getKey st (mkCode rng pos) = none
    · simp only [pickFresh, if_pos hg] at h
      cases h
      exact ⟨hg, pos, rfl⟩
    · simp only [pickFresh, if_neg hg] at h
      exact ih _ h

theorem getKey_map_newRec (pid : Option String) (now : Nat) :
    ∀ {codes : List String} {c : String}, codes.Nodup → c ∈ codes →
    getKey (codes.map (fun c => newRec c pid now)) c = some (newRec c pid now) := by
  intro codes
  induction codes with
  | nil => intro c _ hm; cases hm
  | cons x xs ih =>
    intro c hnd hm
    rcases List.mem_cons.mp hm with h | h
    · subst h
      simp [getKey, newRec]
    · have hx : x ≠ c := by
        intro hxc
        subst hxc
        exact (List.nodup_cons.mp hnd).1 h
      have : (newRec x pid now).code = x := rfl
      simp only [List.map, getKey, this]
      rw [if_neg hx]
      exact ih (List.nodup_cons.mp hnd).2 h

/-- Everything a successful `create_keys_batch` run guarantees: the count,
pairwise freshness, the exact rows appended, and the shape of each code. -/
theorem create_keys_batch_sound (rng : Nat → Nat) (fuel now : Nat) (pid : Option String) :
    ∀ (amount pos : Nat) (st : List KeyRecord) (codes : List String) (st2 : List KeyRecord),
    create_keys_batch rng fuel now pid amount pos st = some (codes, st2) →
    codes.length = amount ∧ codes.Nodup ∧
    (∀ c ∈ codes, getKey st c = none) ∧
    st2 = st ++ codes.map (fun c => newRec c pid now) ∧
    (∀ c ∈ codes, ∃ p, c = mkCode rng p) := by
  intro amount
  induction amount with
  | zero =>
    intro pos st codes st2 h
    simp only [create_keys_batch, Option.some.injEq, Prod.mk.injEq] at h
    obtain ⟨h1, h2⟩ := h
    subst h1
    subst h2
    simp
  | succ n ih =>
    intro pos st codes st2 h
    cases hp : pickFresh rng st pos fuel with
    | none => simp [create_keys_batch, hp] at h
    | some cp =>
      obtain ⟨c, pos2⟩ := cp
      cases hrec : create_keys_batch rng fuel now pid n pos2 (st ++ [newRec c pid now]) with
      | none => simp [create_keys_batch, hp, hrec] at h
      | some p2 =>
        obtain ⟨cs, stf⟩ := p2
        simp only [create_keys_batch, hp, hrec, Option.some.injEq, Prod.mk.injEq] at h
        obtain ⟨h1, h2⟩ := h
        subst h1
        subst h2
        obtain ⟨hlen, hnd, hfresh1, hst, hshape⟩ := ih pos2 _ cs _ hrec
        obtain ⟨hcfresh, hcshape⟩ := pickFresh_sound rng st fuel pos hp
        have hfresh0 : ∀ c2 ∈ cs, getKey st c2 = none := fun c2 hm =>
          getKey_append_none_of_append (hfresh1 c2 hm)
        have hget1 : getKey (st ++ [newRec c pid now]) c = some (newRec c pid now) := by
          rw [getKey_append_none _ hcfresh]
          simp [getKey, newRec]
        have hcmem : c ∉ cs := by
          intro hm
          rw [hfresh1 c hm] at hget1
          exact Option.noConfusion hget1
        refine ⟨by simp [hlen], List.nodup_cons.mpr ⟨hcmem, hnd⟩, ?_, ?_, ?_⟩
        · intro c2 hm
          rcases List.mem_cons.mp hm with h | h
          · subst h; exact hcfresh
          · exact hfresh0 c2 h
        · rw [hst]
          simp
        · intro c2 hm
          rcases List.mem_cons.mp hm with h | h
          · subst h; exact hcshape
          · exact hshape c2 h

/-- Each successful run only appends rows. -/
theorem create_keys_batch_snd (rng : Nat → Nat) (fuel now : Nat) (pid : Option String)
    {amount pos : Nat} {st : List KeyRecord} {codes : List String} {st2 : List KeyRecord}
    (h : create_keys_batch rng fuel now pid amount pos st = some (codes, st2)) :
    ∃ l, st2 = st ++ l :=
  ⟨codes.map (fun c => newRec c pid now),
    (create_keys_batch_sound rng fuel now pid amount pos st codes st2 h).2.2.2.1⟩

/-! ### The effect of an arbitrary operation on one row -/

theorem revoke_snd (c : String) (st : List KeyRecord) :
    (revoke_key c st).2 = st ∨ (revoke_key c st).2 = updRecords setRevoked c st := by
  cases hk : getKey st c with
  | none => exact Or.inl (by simp [revoke_key, hk])
  | some r => exact Or.inr (by simp [revoke_key, hk])

/-- Master frame lemma: after any single operation, a row either survives
unchanged, was claimed (only possible while unowned and not revoked), or was
revoked. -/
theorem getKey_applyOp (op : Op) {st : List KeyRecord} {c : String} {r : KeyRecord}
    (hk : getKey st c = some r) :
    ∃ r2, getKey (applyOp op st) c = some r2 ∧
      (r2 = r ∨
       (∃ u n, r2 = setClaimed u n r ∧ r.status ≠ "revoked" ∧ r.assigned_user_id = none) ∨
       r2 = setRevoked r) := by
  cases op with
  | claim c' u n =>
    rcases claim_snd c' u n st with h | ⟨r0, hk0, hs0, ha0, h⟩
    · exact ⟨r, by simp only [applyOp, h]; exact hk, Or.inl rfl⟩
    · have hup := getKey_updRecords (setClaimed u n) c' (fun x => rfl) st c
      rw [hk] at hup
      by_cases hcc : r.code = c'
      · have hc : c = c' := (getKey_code hk) ▸ hcc
        subst hc
        rw [hk] at hk0
        cases hk0
        refine ⟨setClaimed u n r, ?_, Or.inr (Or.inl ⟨u, n, rfl, hs0, ha0⟩)⟩
        simp only [applyOp, h, hup]
        simp [hcc]
      · refine ⟨r, ?_, Or.inl rfl⟩
        simp only [applyOp, h, hup]
        simp [hcc]
  | revoke c' =>
    rcases revoke_snd c' st with h | h
    · exact ⟨r, by simp only [applyOp, h]; exact hk, Or.inl rfl⟩
    · have hup := getKey_updRecords setRevoked c' (fun x => rfl) st c
      rw [hk] at hup
      by_cases hcc : r.code = c'
      · refine ⟨setRevoked r, ?_, Or.inr (Or.inr rfl)⟩
        simp only [applyOp, h, hup]
        simp [hcc]
      · refine ⟨r, ?_, Or.inl rfl⟩
        simp only [applyOp, h, hup]
        simp [hcc]
  | gen rng fuel now amount pos pid =>
    cases hg : create_keys_batch rng fuel now pid amount pos st with
    | none => exact ⟨r, by simp only [applyOp, hg]; exact hk, Or.inl rfl⟩
    | some p =>
      obtain ⟨cs, st2⟩ := p
      obtain ⟨l, hl⟩ := create_keys_batch_snd rng fuel now pid hg
      refine ⟨r, ?_, Or.inl rfl⟩
      simp only [applyOp, hg]
      rw [hl]
      exact getKey_append_some l hk

/-- Once a row is revoked it stays present and revoked across any sequence of
later operations. -/
theorem applyOps_preserves_revoked {st : List KeyRecord} {c : String} {r : KeyRecord}
    (ops : List Op) (hk : getKey st c = some r) (hs : r.status = "revoked") :
    ∃ r2, getKey (applyOps ops st) c = some r2 ∧ r2.status = "revoked" := by
  induction ops generalizing st r with
  | nil => exact ⟨r, hk, hs⟩
  | cons op ops ih =>
    obtain ⟨r2, hk2, hcase⟩ := getKey_applyOp op hk
    have hs2 : r2.status = "revoked" := by
      rcases hcase with h | ⟨u, n, h, hsr, _⟩ | h
      · rw [h]; exact hs
      · exact absurd hs hsr
      · rw [h]; rfl
    exact ih hk2 hs2

theorem updRecords_eq_map (f : KeyRecord → KeyRecord) (c : String) :
    ∀ st : List KeyRecord,
    updRecords f c st = st.map (fun r => if r.code = c then f r else r) := by
  intro st
  induction st with
  | nil => rfl
  | cons x xs ih => simp [updRecords, ih]

theorem getKey_eq_none_iff : ∀ (st : List KeyRecord) (c : String),
    getKey st c = none ↔ ∀ r ∈ st, r.code ≠ c := by
  intro st c
  induction st with
  | nil => simp [getKey]
  | cons x xs ih =>
    by_cases hx : x.code = c
    · simp [getKey, hx]
    · simp [getKey, hx, ih]

theorem map_upd_no_match {st : List KeyRecord} {c : String}
    (f : KeyRecord → KeyRecord) (h : ∀ r ∈ st, r.code ≠ c) :
    st.map (fun r => if r.code = c then f r else r) = st := by
  induction st with
  | nil => rfl
  | cons x xs ih =>
    have hx : x.code ≠ c := h x (List.mem_cons_self x xs)
    simp only [List.map, if_neg hx]
    rw [ih (fun r hr => h r (List.mem_cons_of_mem x hr))]

/-- Adequacy of the two-step decomposition: when the read and the decision
run back to back with no interleaved writer, they reproduce
`claim_key_for_user` exactly. -/
theorem claim_eq_read_then_finish (code : String) (uid : Int) (now : Nat)
    (st : List KeyRecord) :
    claim_key_for_user code uid now st = claimFinish code uid now (claimRead code st) st := by
  cases hk : getKey st code with
  | none => simp [claim_key_for_user, claimFinish, claimRead, hk]
  | some r =>
    by_cases hs : r.status = "revoked"
    · simp [claim_key_for_user, claimFinish, claimRead, hk, hs]
    · cases ha : r.assigned_user_id with
      | none => simp [claim_key_for_user, claimFinish, claimRead, hk, hs, ha]
      | some a => simp [claim_key_for_user, claimFinish, claimRead, hk, hs, ha]

/-! ### Lemmas about the `ORDER BY claimed_at DESC LIMIT 1` scan -/

theorem best_some_ne_none (b : KeyRecord) : ∀ l : List KeyRecord, best (some b) l ≠ none := by
  intro l
  induction l generalizing b with
  | nil => exact fun h => Option.noConfusion h
  | cons r rs ih =>
    by_cases hlt : claimedLt b.claimed_at r.claimed_at
    · simpa [best, hlt] using ih r
    · simpa [best, hlt] using ih b

theorem best_none_iff : ∀ l : List KeyRecord, best none l = none ↔ l = [] := by
  intro l
  cases l with
  | nil => simp [best]
  | cons r rs =>
    constructor
    · intro h
      exact absurd h (by simpa [best] using best_some_ne_none r rs)
    · intro h
      exact List.noConfusion h

theorem best_mem : ∀ (l : List KeyRecord) (acc : Option KeyRecord) (b : KeyRecord),
    best acc l = some b → acc = some b ∨ b ∈ l := by
  intro l
  induction l with
  | nil => intro acc b h; exact Or.inl h
  | cons r rs ih =>
    intro acc b h
    cases acc with
    | none =>
      rcases ih (some r) b h with h2 | h2
      · exact Or.inr (List.mem_cons.mpr (Or.inl (Option.some.inj h2).symm))
      · exact Or.inr (List.mem_cons.mpr (Or.inr h2))
    | some a =>
      by_cases hlt : claimedLt a.claimed_at r.claimed_at
      · simp only [best, hlt, if_pos] at h
        rcases ih (some r) b h with h2 | h2
        · exact Or.inr (List.mem_cons.mpr (Or.inl (Option.some.inj h2).symm))
        · exact Or.inr (List.mem_cons.mpr (Or.inr h2))
      · simp only [best, hlt, if_neg, ite_false] at h
        rcases ih (some a) b h with h2 | h2
        · exact Or.inl h2
        · exact Or.inr (List.mem_cons.mpr (Or.inr h2))

theorem claimedLt_irrefl (a : Option Nat) : claimedLt a a = false := by
  simp [claimedLt]

theorem best_ge : ∀ (l : List KeyRecord) (acc : Option KeyRecord) (b : KeyRecord),
    best acc l = some b →
    (∀ a, acc = some a → claimedLt b.claimed_at a.claimed_at = false) ∧
    (∀ x ∈ l, claimedLt b.claimed_at x.claimed_at = false) := by
  intro l
  induction l with
  | nil =>
    intro acc b h
    refine ⟨?_, by simp⟩
    intro a ha
    rw [ha] at h
    cases h
    exact claimedLt_irrefl _
  | cons r rs ih =>
    intro acc b h
    cases acc with
    | none =>
      have h2 := ih (some r) b (by simpa [best] using h)
      refine ⟨by simp, ?_⟩
      intro x hx
      rcases List.mem_cons.mp hx with hx | hx
      · subst hx; exact h2.1 x rfl
      · exact h2.2 x hx
    | some a =>
      by_cases hlt : claimedLt a.claimed_at r.claimed_at
      · have h2 := ih (some r) b (by simpa [best, hlt] using h)
        have hbr : claimedLt b.claimed_at r.claimed_at = false := h2.1 r rfl
        refine ⟨?_, ?_⟩
        · intro a2 ha2
          cases ha2
          simp only [claimedLt, decide_eq_false_iff_not] at hbr ⊢
          simp only [claimedLt, decide_eq_true_eq] at hlt
          omega
        · intro x hx
          rcases List.mem_cons.mp hx with hx | hx
          · subst hx; exact hbr
          · exact h2.2 x hx
      · have h2 := ih (some a) b (by simpa [best, hlt] using h)
        have hba : claimedLt b.claimed_at a.claimed_at = false := h2.1 a rfl
        refine ⟨?_, ?_⟩
        · intro a2 ha2
          cases ha2
          exact hba
        · intro x hx
          rcases List.mem_cons.mp hx with hx | hx
          · subst hx
            simp only [claimedLt, decide_eq_false_iff_not] at hba ⊢
            simp only [claimedLt, decide_eq_true_eq] at hlt
            omega
          · exact h2.2 x hx

/-! ### Shape of generated codes -/

theorem mkCode_length (rng : Nat → Nat) (p : Nat) : (mkCode rng p).length = 12 := by
  simp [mkCode, String.length]

theorem mkCode_chars (rng : Nat → Nat) (p : Nat) :
    ∀ ch ∈ (mkCode rng p).toList, ch ∈ alphabet := by
  intro ch hch
  simp only [mkCode, String.toList] at hch
  obtain ⟨i, _, hi⟩ := List.mem_map.mp hch
  exact hi ▸ List.get_mem _ _ _

/-! ### The claims -/

/-- Claim C9: `revoke_key` fails exactly when the code is absent, and
otherwise returns success after rewriting precisely the rows carrying that
code: their `status` becomes `revoked` regardless of its prior value, while
`code`, `product_id`, `assigned_user_id`, `created_at` and `claimed_at` are
untouched — revocation does not clear the owner.  (When the code is absent
the row map is the identity, so the table is unchanged.) -/
theorem revoke_key_spec (code : String) (st : List KeyRecord) :
    ((revoke_key code st).1 = false ↔ getKey st code = none) ∧
    (revoke_key code st).2 = st.map (fun r => if r.code = code then setRevoked r else r) ∧
    (∀ r : KeyRecord, (setRevoked r).status = "revoked" ∧ (setRevoked r).code = r.code ∧
      (setRevoked r).product_id = r.product_id ∧
      (setRevoked r).assigned_user_id = r.assigned_user_id ∧
      (setRevoked r).created_at = r.created_at ∧ (setRevoked r).claimed_at = r.claimed_at) := by
  refine ⟨?_, ?_, fun r => ⟨rfl, rfl, rfl, rfl, rfl, rfl⟩⟩
  · cases hk : getKey st code with
    | none => simp [revoke_key, hk]
    | some r => simp [revoke_key, hk]
  · cases hk : getKey st code with
    | none =>
      have hno := (getKey_eq_none_iff st code).mp hk
      simp only [revoke_key, hk]
      exact (map_upd_no_match setRevoked hno).symm
    | some r =>
      simp only [revoke_key, hk]
      exact updRecords_eq_map setRevoked code st

/-- Claim C2: an already-set owner is preserved by every operation —
`claim_key_for_user`, `revoke_key` and `create_keys_batch` — and a claim
request for a code whose owner is set merely compares the requesting
identity against the stored owner, never overwriting or clearing it. -/
theorem owner_set_at_most_once :
    (∀ (op : Op) (st : List KeyRecord) (c : String) (r : KeyRecord) (a : Int),
      getKey st c = some r → r.assigned_user_id = some a →
      ∃ r2, getKey (applyOp op st) c = some r2 ∧ r2.assigned_user_id = some a) ∧
    (∀ (c : String) (u a : Int) (n : Nat) (st : List KeyRecord) (r : KeyRecord),
      getKey st c = some r → r.status ≠ "revoked" → r.assigned_user_id = some a →
      claim_key_for_user c u n st = (decide (a = u), st)) := by
  constructor
  · intro op st c r a hk ha
    obtain ⟨r2, hk2, hcase⟩ := getKey_applyOp op hk
    rcases hcase with h | ⟨u, n, h, hs0, ha0⟩ | h
    · exact ⟨r2, hk2, h.symm ▸ ha⟩
    · rw [ha] at ha0; exact Option.noConfusion ha0
    · exact ⟨r2, hk2, by rw [h]; exact ha⟩
  · intro c u a n st r hk hs ha
    simp [claim_key_for_user, hk, hs, ha]

/-- Witness for C2 at a concrete owned row: revocation keeps owner `7`, and a
claim by the different identity `9` compares (`decide (7 = 9) = false`) and
leaves the table unchanged. -/
theorem owner_set_at_most_once_witness :
    (∃ r2, getKey (applyOp (Op.revoke "KEY123456789")
        [⟨"KEY123456789", none, some 7, "claimed", 0, some 1⟩]) "KEY123456789" = some r2 ∧
      r2.assigned_user_id = some 7) ∧
    claim_key_for_user "KEY123456789" 9 3 [⟨"KEY123456789", none, some 7, "claimed", 0, some 1⟩] =
      (decide ((7 : Int) = 9), [⟨"KEY123456789", none, some 7, "claimed", 0, some 1⟩]) := by
  constructor
  · exact owner_set_at_most_once.1 (Op.revoke "KEY123456789") _ "KEY123456789"
      ⟨"KEY123456789", none, some 7, "claimed", 0, some 1⟩ 7 (by decide) (by decide)
  · exact owner_set_at_most_once.2 "KEY123456789" 9 7 3 _
      ⟨"KEY123456789", none, some 7, "claimed", 0, some 1⟩ (by decide) (by decide) (by decide)

/-- Claim C4: after a successful claim of `code` by identity `u`, every later
`claim_key_for_user(code, u)` call returns `True` and leaves the table
unchanged, repeated any number of times. -/
theorem reclaim_idempotent (code : String) (u : Int) (t0 : Nat)
    (st0 st : List KeyRecord) (h : claim_key_for_user code u t0 st0 = (true, st)) :
    ∀ (now n : Nat),
      claim_key_for_user code u now st = (true, st) ∧ claimN code u now n st = st := by
  have hrec : ∃ r, getKey st code = some r ∧ r.status ≠ "revoked" ∧
      r.assigned_user_id = some u := by
    cases hk : getKey st0 code with
    | none => simp [claim_key_for_user, hk] at h
    | some r =>
      by_cases hs : r.status = "revoked"
      · simp [claim_key_for_user, hk, hs] at h
      · cases ha : r.assigned_user_id with
        | none =>
          simp only [claim_key_for_user, hk, hs, if_neg hs, ha] at h
          have hst : updRecords (setClaimed u t0) code st0 = st := congrArg Prod.snd h
          have hup := getKey_updRecords (setClaimed u t0) code (fun x => rfl) st0 code
          rw [hk] at hup
          rw [hst] at hup
          refine ⟨setClaimed u t0 r, ?_, by simp [setClaimed], rfl⟩
          rw [hup]
          simp [getKey_code hk]
        | some a =>
          simp only [claim_key_for_user, hk, hs, if_neg hs, ha] at h
          have hau : a = u := by
            have h1 := congrArg Prod.fst h
            simpa using h1
          have hst : st0 = st := congrArg Prod.snd h
          subst hau
          subst hst
          exact ⟨r, hk, hs, ha⟩
  obtain ⟨r, hk, hs, ha⟩ := hrec
  intro now n
  have hclaim : claim_key_for_user code u now st = (true, st) := by
    simp [claim_key_for_user, hk, hs, ha]
  refine ⟨hclaim, ?_⟩
  induction n with
  | zero => rfl
  | succ n ih =>
    simp only [claimN, hclaim]
    exact ih

/-- Witness for C4: identity `1` claimed `"KEY000000001"`; re-claiming once
returns `True` without mutation, and three repetitions leave the table fixed. -/
theorem reclaim_idempotent_witness :
    claim_key_for_user "KEY000000001" 1 9 [⟨"KEY000000001", none, some 1, "claimed", 0, some 5⟩] =
      (true, [⟨"KEY000000001", none, some 1, "claimed", 0, some 5⟩]) ∧
    claimN "KEY000000001" 1 9 3 [⟨"KEY000000001", none, some 1, "claimed", 0, some 5⟩] =
      [⟨"KEY000000001", none, some 1, "claimed", 0, some 5⟩] :=
  reclaim_idempotent "KEY000000001" 1 5 [newRec "KEY000000001" none 0] _ (by decide) 9 3

/-- Claim C5: once `revoke_key(code)` has returned success, after any
sequence of further operations no claim of `code` goes through —
`claim_key_for_user` returns `False` and `cmd_start` never reports a granted
outcome, whoever asks — and no single operation moves a row's status out of
`revoked`: a step either keeps the status, or goes `new → claimed`, or goes
`(new|claimed) → revoked`. -/
theorem revocation_terminal :
    (∀ (code : String) (st0 st1 : List KeyRecord), revoke_key code st0 = (true, st1) →
      ∀ (ops : List Op) (uid : Int) (now : Nat),
        (claim_key_for_user code uid now (applyOps ops st1)).1 = false ∧
        (cmd_start code uid now (applyOps ops st1)).1 ≠ ClaimResult.grantedNew ∧
        (cmd_start code uid now (applyOps ops st1)).1 ≠ ClaimResult.grantedExisting) ∧
    (∀ (op : Op) (st : List KeyRecord) (c : String) (r r2 : KeyRecord),
      getKey st c = some r → getKey (applyOp op st) c = some r2 →
      (r.status = "new" ∨ r.status = "claimed" ∨ r.status = "revoked") →
      (r2.status = r.status ∨ (r.status = "new" ∧ r2.status = "claimed") ∨
       ((r.status = "new" ∨ r.status = "claimed") ∧ r2.status = "revoked"))) := by
  constructor
  · intro code st0 st1 hrev ops uid now
    have hrow : ∃ r, getKey st1 code = some r ∧ r.status = "revoked" := by
      cases hk : getKey st0 code with
      | none => simp [revoke_key, hk] at hrev
      | some r =>
        have hst1 : updRecords setRevoked code st0 = st1 := by
          have h2 := congrArg Prod.snd hrev
          simpa [revoke_key, hk] using h2
        have hup := getKey_updRecords setRevoked code (fun x => rfl) st0 code
        rw [hk, hst1] at hup
        exact ⟨setRevoked r, by rw [hup]; simp [getKey_code hk], rfl⟩
    obtain ⟨r1, hk1, hs1⟩ := hrow
    obtain ⟨r2, hk2, hs2⟩ := applyOps_preserves_revoked ops hk1 hs1
    refine ⟨by simp [claim_key_for_user, hk2, hs2], ?_, ?_⟩ <;>
    · by_cases hc : code = ""
      · simp [cmd_start, hc]
      · simp [cmd_start, hc, hk2, hs2]
  · intro op st c r r2 hk hk2 htri
    obtain ⟨r2x, hk2x, hcase⟩ := getKey_applyOp op hk
    rw [hk2x] at hk2
    have heq : r2x = r2 := Option.some.inj hk2
    subst heq
    rcases hcase with h | ⟨u, n, h, hsr, _⟩ | h
    · exact Or.inl (by rw [h])
    · rcases htri with hn | hc2 | hr
      · exact Or.inr (Or.inl ⟨hn, by simp [h, setClaimed]⟩)
      · exact Or.inl (by simp [h, setClaimed, hc2])
      · exact absurd hr hsr
    · rcases htri with hn | hc2 | hr
      · exact Or.inr (Or.inr ⟨Or.inl hn, by simp [h, setRevoked]⟩)
      · exact Or.inr (Or.inr ⟨Or.inr hc2, by simp [h, setRevoked]⟩)
      · exact Or.inl (by simp [h, setRevoked, hr])

/-- Witness for C5: code `"KEY000000002"` is revoked while still unclaimed;
even after an intervening claim attempt by identity `3`, a claim by identity
`1` returns `False` and `/start` reports no granted outcome; and the concrete
revocation step takes the row's status from `new` to `revoked`. -/
theorem revocation_terminal_witness :
    ((claim_key_for_user "KEY000000002" 1 9
        (applyOps [Op.claim "KEY000000002" 3 4]
          [⟨"KEY000000002", none, none, "revoked", 0, none⟩])).1 = false ∧
      (cmd_start "KEY000000002" 1 9
        (applyOps [Op.claim "KEY000000002" 3 4]
          [⟨"KEY000000002", none, none, "revoked", 0, none⟩])).1 ≠ ClaimResult.grantedNew ∧
      (cmd_start "KEY000000002" 1 9
        (applyOps [Op.claim "KEY000000002" 3 4]
          [⟨"KEY000000002", none, none, "revoked", 0, none⟩])).1 ≠ ClaimResult.grantedExisting) ∧
    ((⟨"KEY000000002", none, none, "revoked", 0, none⟩ : KeyRecord).status =
        (newRec "KEY000000002" none 0).status ∨
      ((newRec "KEY000000002" none 0).status = "new" ∧
        (⟨"KEY000000002", none, none, "revoked", 0, none⟩ : KeyRecord).status = "claimed") ∨
      (((newRec "KEY000000002" none 0).status = "new" ∨
        (newRec "KEY000000002" none 0).status = "claimed") ∧
        (⟨"KEY000000002", none, none, "revoked", 0, none⟩ : KeyRecord).status = "revoked")) := by
  constructor
  · exact revocation_terminal.1 "KEY000000002" [newRec "KEY000000002" none 0] _
      (by decide) [Op.claim "KEY000000002" 3 4] 1 9
  · exact revocation_terminal.2 (Op.revoke "KEY000000002") [newRec "KEY000000002" none 0]
      "KEY000000002" (newRec "KEY000000002" none 0)
      ⟨"KEY000000002", none, none, "revoked", 0, none⟩ (by decide) (by decide) (by decide)

/-- Claim C3: for a non-empty code, the `/start` flow (`get_key` followed by
`claim_key_for_user` inside `cmd_start`) returns exactly the outcome and the
table of the spec's five-step decision procedure `attemptClaimSpec`: absent →
`NOT_FOUND` with no row created; revoked → `REJECTED_REVOKED`, no mutation;
unowned → owner set to the requester, status `claimed`, `claimed_at` set,
`GRANTED_NEW`; owner equal → `GRANTED_EXISTING`, no mutation; owner different
→ `REJECTED_OWNED_BY_OTHER`, no mutation. -/
theorem cmd_start_implements_claim_procedure (code : String) (uid : Int) (now : Nat)
    (st : List KeyRecord) (h : code ≠ "") :
    ((cmd_start code uid now st).1, (cmd_start code uid now st).2.1) =
      attemptClaimSpec code uid now st := by
  cases hk : getKey st code with
  | none => simp [cmd_start, attemptClaimSpec, h, hk]
  | some r =>
    by_cases hs : r.status = "revoked"
    · simp [cmd_start, attemptClaimSpec, h, hk, hs]
    · cases ha : r.assigned_user_id with
      | none =>
        simp [cmd_start, attemptClaimSpec, claim_key_for_user, h, hk, hs, ha]
      | some a =>
        by_cases hau : a = uid
        · simp [cmd_start, attemptClaimSpec, claim_key_for_user, h, hk, hs, ha, hau]
        · simp [cmd_start, attemptClaimSpec, claim_key_for_user, h, hk, hs, ha, hau]

/-- Witness for C3 on a fresh row: claiming `"KEY000000003"` matches the
spec procedure's `GRANTED_NEW` outcome and table. -/
theorem cmd_start_implements_claim_procedure_witness :
    (("KEY000000003" : String) ≠ "") ∧
    ((cmd_start "KEY000000003" 1 5 [newRec "KEY000000003" none 0]).1,
      (cmd_start "KEY000000003" 1 5 [newRec "KEY000000003" none 0]).2.1) =
      attemptClaimSpec "KEY000000003" 1 5 [newRec "KEY000000003" none 0] :=
  ⟨by decide, cmd_start_implements_claim_procedure "KEY000000003" 1 5 _ (by decide)⟩

/-- Claim C6 as stated is false on the code: a granted `/start` call logs the
`attempt` entry and an `invite_created`/`start_flow` entry, but no entry with
action `granted` or `rejected` — shown by a successful claim of the fresh
code `"ABC123456789"` by identity `1`. -/
theorem granted_path_logs_no_granted_action :
    (cmd_start "ABC123456789" 1 5 [newRec "ABC123456789" none 0]).1 = ClaimResult.grantedNew ∧
    (cmd_start "ABC123456789" 1 5 [newRec "ABC123456789" none 0]).2.2 ≠ [] ∧
    (∀ e ∈ (cmd_start "ABC123456789" 1 5 [newRec "ABC123456789" none 0]).2.2,
      e.action ≠ "granted" ∧ e.action ≠ "rejected") := by decide

/-- Claim C6 (amended): every `/start` claim call with a non-empty code
appends the `attempt` entry plus exactly one outcome entry whose reason
matches the outcome — action `rejected` with reason `code_not_found`,
`code_revoked` or `owned_by_another` for the three rejections, and action
`invite_created` with reason `start_flow` (not action `granted`) for both
granted outcomes. -/
theorem audit_entries_match_outcome (code : String) (uid : Int) (now : Nat)
    (st : List KeyRecord) (h : code ≠ "") :
    (cmd_start code uid now st).2.2 ≠ [] ∧
    ((cmd_start code uid now st).1 = ClaimResult.notFound →
      (cmd_start code uid now st).2.2 =
        [logEntry uid code "attempt" "start_param",
         logEntry uid code "rejected" "code_not_found"]) ∧
    ((cmd_start code uid now st).1 = ClaimResult.rejectedRevoked →
      (cmd_start code uid now st).2.2 =
        [logEntry uid code "attempt" "start_param",
         logEntry uid code "rejected" "code_revoked"]) ∧
    ((cmd_start code uid now st).1 = ClaimResult.rejectedOwnedByOther →
      (cmd_start code uid now st).2.2 =
        [logEntry uid code "attempt" "start_param",
         logEntry uid code "rejected" "owned_by_another"]) ∧
    ((cmd_start code uid now st).1 = ClaimResult.grantedNew ∨
        (cmd_start code uid now st).1 = ClaimResult.grantedExisting →
      (cmd_start code uid now st).2.2 =
        [logEntry uid code "attempt" "start_param",
         logEntry uid code "invite_created" "start_flow"]) := by
  cases hk : getKey st code with
  | none => simp [cmd_start, h, hk]
  | some r =>
    by_cases hs : r.status = "revoked"
    · simp [cmd_start, h, hk, hs]
    · cases ha : r.assigned_user_id with
      | none =>
        simp [cmd_start, claim_key_for_user, h, hk, hs, ha]
      | some a =>
        by_cases hau : a = uid
        · simp [cmd_start, claim_key_for_user, h, hk, hs, ha, hau]
        · simp [cmd_start, claim_key_for_user, h, hk, hs, ha, hau]

/-- Witness for the amended C6: an unknown code is rejected with the exact
`attempt` + `rejected`/`code_not_found` audit entries. -/
theorem audit_entries_match_outcome_witness :
    (cmd_start "NOPE00000000" 1 0 []).1 = ClaimResult.notFound ∧
    (cmd_start "NOPE00000000" 1 0 []).2.2 =
      [logEntry 1 "NOPE00000000" "attempt" "start_param",
       logEntry 1 "NOPE00000000" "rejected" "code_not_found"] :=
  ⟨by decide, (audit_entries_match_outcome "NOPE00000000" 1 0 [] (by decide)).2.1 (by decide)⟩

/-- Claim C1 fails on the code: `claim_key_for_user` is a check-then-act —
its `SELECT` and its `UPDATE` are separate awaited statements on separate
connections, so the event loop may interleave two claims of the same
never-claimed code as read₁, read₂, write₁, write₂.  Both calls then return
`True` for different identities, and identity 2's write silently overwrites
the owner recorded for identity 1. -/
theorem claim_race_two_granted :
    (claimFinish "ABC123456789" 1 5 (claimRead "ABC123456789" [newRec "ABC123456789" none 0])
       [newRec "ABC123456789" none 0]).1 = true ∧
    (claimFinish "ABC123456789" 2 6 (claimRead "ABC123456789" [newRec "ABC123456789" none 0])
       (claimFinish "ABC123456789" 1 5 (claimRead "ABC123456789" [newRec "ABC123456789" none 0])
          [newRec "ABC123456789" none 0]).2).1 = true ∧
    List.map (fun r => r.assigned_user_id)
      (claimFinish "ABC123456789" 1 5 (claimRead "ABC123456789" [newRec "ABC123456789" none 0])
         [newRec "ABC123456789" none 0]).2 = [some 1] ∧
    List.map (fun r => r.assigned_user_id)
      (claimFinish "ABC123456789" 2 6 (claimRead "ABC123456789" [newRec "ABC123456789" none 0])
         (claimFinish "ABC123456789" 1 5 (claimRead "ABC123456789" [newRec "ABC123456789" none 0])
            [newRec "ABC123456789" none 0]).2).2 = [some 2] := by decide

/-- Witness for C9 at a concrete two-row table: revoking `"KEY000000004"`
succeeds, rewrites exactly that row's status and keeps its owner. -/
theorem revoke_key_spec_witness :
    ((revoke_key "KEY000000004"
        [⟨"KEY000000004", some "p1", some 7, "claimed", 0, some 2⟩,
         newRec "KEY000000005" none 1]).1 = false ↔
      getKey [⟨"KEY000000004", some "p1", some 7, "claimed", 0, some 2⟩,
        newRec "KEY000000005" none 1] "KEY000000004" = none) ∧
    (revoke_key "KEY000000004"
        [⟨"KEY000000004", some "p1", some 7, "claimed", 0, some 2⟩,
         newRec "KEY000000005" none 1]).2 =
      List.map (fun r => if r.code = "KEY000000004" then setRevoked r else r)
        [⟨"KEY000000004", some "p1", some 7, "claimed", 0, some 2⟩,
         newRec "KEY000000005" none 1] ∧
    (∀ r : KeyRecord, (setRevoked r).status = "revoked" ∧ (setRevoked r).code = r.code ∧
      (setRevoked r).product_id = r.product_id ∧
      (setRevoked r).assigned_user_id = r.assigned_user_id ∧
      (setRevoked r).created_at = r.created_at ∧ (setRevoked r).claimed_at = r.claimed_at) :=
  revoke_key_spec "KEY000000004"
    [⟨"KEY000000004", some "p1", some 7, "claimed", 0, some 2⟩, newRec "KEY000000005" none 1]

/-- Claim C7: a successful `create_keys_batch` run returns exactly `amount`
codes, pairwise distinct (`Nodup`) and absent from the starting table; it
appends exactly one row per code with status `new`, no owner and no
`claimed_at`; colliding draws are consumed inside the retry loop, so every
returned code is fresh and the collision never surfaces to the caller. -/
theorem create_keys_batch_spec (rng : Nat → Nat) (fuel now : Nat) (pid : Option String)
    (amount pos : Nat) (st : List KeyRecord) (codes : List String) (st2 : List KeyRecord)
    (h : create_keys_batch rng fuel now pid amount pos st = some (codes, st2)) :
    codes.length = amount ∧ codes.Nodup ∧
    (∀ c ∈ codes, getKey st c = none) ∧
    st2 = st ++ codes.map (fun c => newRec c pid now) ∧
    (∀ c ∈ codes, getKey st2 c = some (newRec c pid now)) := by
  obtain ⟨hlen, hnd, hfresh, hst, _⟩ :=
    create_keys_batch_sound rng fuel now pid amount pos st codes st2 h
  refine ⟨hlen, hnd, hfresh, hst, ?_⟩
  intro c hm
  rw [hst, getKey_append_none _ (hfresh c hm)]
  exact getKey_map_newRec pid now hnd hm

/-- Witness for C7: a concrete batch of two codes generated into an empty
table with the identity draw stream. -/
theorem create_keys_batch_spec_witness :
    (["ABCDEFGHIJKL", "MNOPQRSTUVWX"] : List String).length = 2 ∧
    (["ABCDEFGHIJKL", "MNOPQRSTUVWX"] : List String).Nodup ∧
    (∀ c ∈ (["ABCDEFGHIJKL", "MNOPQRSTUVWX"] : List String), getKey [] c = none) ∧
    ([newRec "ABCDEFGHIJKL" none 7, newRec "MNOPQRSTUVWX" none 7] : List KeyRecord) =
      [] ++ (["ABCDEFGHIJKL", "MNOPQRSTUVWX"] : List String).map (fun c => newRec c none 7) ∧
    (∀ c ∈ (["ABCDEFGHIJKL", "MNOPQRSTUVWX"] : List String),
      getKey [newRec "ABCDEFGHIJKL" none 7, newRec "MNOPQRSTUVWX" none 7] c =
        some (newRec c none 7)) :=
  create_keys_batch_spec (fun k => k) 3 7 none 2 0 [] _ _ (by decide)

/-- Claim C10: every code produced by `create_keys_batch` is exactly 12
characters long, each drawn from the 36-symbol alphabet of uppercase ASCII
letters and decimal digits. -/
theorem generated_codes_wellformed (rng : Nat → Nat) (fuel now : Nat) (pid : Option String)
    (amount pos : Nat) (st : List KeyRecord) (codes : List String) (st2 : List KeyRecord)
    (h : create_keys_batch rng fuel now pid amount pos st = some (codes, st2)) :
    ∀ c ∈ codes, c.length = 12 ∧ ∀ ch ∈ c.toList, ch ∈ alphabet := by
  obtain ⟨_, _, _, _, hshape⟩ :=
    create_keys_batch_sound rng fuel now pid amount pos st codes st2 h
  intro c hm
  obtain ⟨p, hp⟩ := hshape c hm
  subst hp
  exact ⟨mkCode_length rng p, mkCode_chars rng p⟩

/-- Witness for C10: the first code of the concrete batch has length 12 and
draws all its characters from the alphabet. -/
theorem generated_codes_wellformed_witness :
    ("ABCDEFGHIJKL" : String).length = 12 ∧
      (∀ ch ∈ ("ABCDEFGHIJKL" : String).toList, ch ∈ alphabet) :=
  generated_codes_wellformed (fun k => k) 3 7 none 2 0 []
    ["ABCDEFGHIJKL", "MNOPQRSTUVWX"]
    [newRec "ABCDEFGHIJKL" none 7, newRec "MNOPQRSTUVWX" none 7] (by decide)
    "ABCDEFGHIJKL" (by decide)

/-- Claim C8: the `/access` lookup (`latestClaimFor`) returns `none`
(NOT_FOUND) exactly when the user has no row with `status = 'claimed'`, and
otherwise returns the code of a matching row whose `claimed_at` is greatest
among all matching rows; the `/access` handler leaves the code store
unchanged. -/
theorem latestClaimFor_spec (uid : Int) (st : List KeyRecord) :
    ((latestClaimFor uid st = none) ↔ ∀ r ∈ st, matchRec uid r = false) ∧
    (∀ c, latestClaimFor uid st = some c →
      ∃ r ∈ st, matchRec uid r = true ∧ r.code = c ∧
        ∀ r2 ∈ st, matchRec uid r2 = true →
          claimedLt r.claimed_at r2.claimed_at = false) ∧
    (cmd_access uid st).2 = st := by
  refine ⟨⟨?_, ?_⟩, ?_, rfl⟩
  · intro h r hr
    have hb : best none (st.filter (matchRec uid)) = none := by
      cases hbb : best none (st.filter (matchRec uid)) with
      | none => rfl
      | some b => simp [latestClaimFor, hbb] at h
    have hnil := (best_none_iff _).mp hb
    have hnr := List.filter_eq_nil_iff.mp hnil r hr
    exact Bool.eq_false_iff.mpr hnr
  · intro hall
    have hnil : st.filter (matchRec uid) = [] :=
      List.filter_eq_nil_iff.mpr (fun r hr => by simp [hall r hr])
    simp [latestClaimFor, hnil, best]
  · intro c hc
    cases hbb : best none (st.filter (matchRec uid)) with
    | none => simp [latestClaimFor, hbb] at hc
    | some b =>
      simp only [latestClaimFor, hbb, Option.map_some'] at hc
      have hcb : b.code = c := Option.some.inj hc
      have hmem : b ∈ st.filter (matchRec uid) := by
        rcases best_mem _ none b hbb with h2 | h2
        · exact Option.noConfusion h2
        · exact h2
      have hge := (best_ge _ none b hbb).2
      obtain ⟨hbst, hbm⟩ := List.mem_filter.mp hmem
      refine ⟨b, hbst, hbm, hcb, ?_⟩
      intro r2 hr2 hm2
      exact hge r2 (List.mem_filter.mpr ⟨hr2, hm2⟩)

/-- Witness for C8: identity `1` owns two claimed rows; the lookup returns
the one with the greater `claimed_at`, and it is maximal among the matches. -/
theorem latestClaimFor_spec_witness :
    ∃ r ∈ [(⟨"A0000000000A", none, some 1, "claimed", 0, some 3⟩ : KeyRecord),
           ⟨"B0000000000B", none, some 1, "claimed", 0, some 7⟩],
      matchRec 1 r = true ∧ r.code = "B0000000000B" ∧
        ∀ r2 ∈ [(⟨"A0000000000A", none, some 1, "claimed", 0, some 3⟩ : KeyRecord),
                ⟨"B0000000000B", none, some 1, "claimed", 0, some 7⟩],
          matchRec 1 r2 = true → claimedLt r.claimed_at r2.claimed_at = false :=
  (latestClaimFor_spec 1
    [⟨"A0000000000A", none, some 1, "claimed", 0, some 3⟩,
     ⟨"B0000000000B", none, some 1, "claimed", 0, some 7⟩]).2.1 "B0000000000B" (by decide)

end NfcBot
